import Mathlib

/-!
Shallow embedding of `src/get_residuals.cpp` from the scran repository:
row-by-row computation of least-squares residuals from a precomputed QR
factorization, with optional lower-bound censoring of "undetectable"
values.

Numeric matrix entries are modelled as rationals.  The external
collaborators (`beachmat` accessors, `run_dormqr`, the validation helpers
in `utils.h`) are not under `src/`; where a claim depends on them they are
modelled from the spec, with a doc comment saying so.
-/

/-- An R double as seen through `R_FINITE`: either a finite rational or
one of the non-finite sentinels (`-Inf`, `Inf`, `NaN`/`NA`). -/
inductive RVal where
  | finite (q : ℚ)
  | negInf
  | posInf
  | nan
deriving DecidableEq

/-- `R_FINITE` from the R API: true exactly on finite values. -/
def R_FINITE : RVal → Bool
  | .finite _ => true
  | _ => false

/-- The rational value of an R double; only ever consulted on values for
which `R_FINITE` holds (the C++ comparisons against `lbound` happen only
under `check_lower`). -/
def RVal.toQ : RVal → ℚ
  | .finite q => q
  | _ => 0

/-- Modelled from the spec: `check_subset_vector` (declared in `utils.h`,
which is not under `src/`) validates that every subset index lies in
`[0, feature_count)` and returns the 0-based index sequence; an
out-of-range index is a fatal error raised before any row is processed. -/
def check_subset_vector (nrow : ℕ) : List ℤ → Except String (List (Fin nrow))
  | [] => .ok []
  | i :: rest =>
    if h : 0 ≤ i ∧ i < (nrow : ℤ) then
      match check_subset_vector nrow rest with
      | .ok out => .ok (⟨i.toNat, by omega⟩ :: out)
      | .error e => .error e
    else
      .error "subset indices out of range"

/-- Modelled from the spec: `check_numeric_scalar` (declared in `utils.h`,
not under `src/`) requires the lower-bound argument to be a length-one
numeric vector and returns its single value; anything else is a fatal
error raised before processing begins. -/
def check_numeric_scalar : List RVal → Except String RVal
  | [x] => .ok x
  | _ => .error "expected a numeric scalar for the lower bound"

/-- Modelled from the spec: the QR factorization handle wrapped by
`run_dormqr` (`run_dormqr.h`, not under `src/`): a compactly stored
orthogonal factor of size `dim × dim`, and the coefficient count reported
by `get_ncoefs()`. -/
structure QRFact where
  dim : ℕ
  Q : Matrix (Fin dim) (Fin dim) ℚ
  ncoefs : ℕ

/-- Modelled from the spec: `run_dormqr::run` in transpose mode
(`multQ1.run(tptr)`): buffer ← Qᵗ · buffer, in place. -/
def applyQt {n : ℕ} (Q : Matrix (Fin n) (Fin n) ℚ) (v : Fin n → ℚ) : Fin n → ℚ :=
  Matrix.mulVec Q.transpose v

/-- Modelled from the spec: `run_dormqr::run` in no-transpose mode
(`multQ2.run(tptr)`): buffer ← Q · buffer, in place. -/
def applyQ {n : ℕ} (Q : Matrix (Fin n) (Fin n) ℚ) (v : Fin n → ℚ) : Fin n → ℚ :=
  Matrix.mulVec Q v

/-- `std::fill(tmp.begin(), tmp.begin()+ncoefs, 0)`: zero the first
`ncoefs` entries of the buffer ("setting main effects to zero"). -/
def zeroFirst {n : ℕ} (ncoefs : ℕ) (v : Fin n → ℚ) : Fin n → ℚ :=
  fun i => if (i : ℕ) < ncoefs then 0 else v i

/-- The three-step projection in the loop body of `get_residuals.cpp`
(lines 59-61): apply Qᵗ, zero the first `ncoefs` coordinates, apply Q. -/
def qrResidual {n : ℕ} (Q : Matrix (Fin n) (Fin n) ℚ) (ncoefs : ℕ)
    (row : Fin n → ℚ) : Fin n → ℚ :=
  applyQ Q (zeroFirst ncoefs (applyQt Q row))

/-- `*std::min_element(tmp.begin(), tmp.end())`: the least entry of the
buffer; only consulted when the buffer is nonempty. -/
def bufMin {n : ℕ} (v : Fin n → ℚ) : ℚ :=
  (((List.finRange n).map v).min?).getD 0

/-- One iteration of the per-row loop of `get_residuals.cpp` (lines
46-72): append the below-bound column indices of the raw row to the
scratch list, run the projection, and, if bound checking is on and the
scratch list is nonempty, overwrite the recorded positions with
`min(buffer) - 1` and clear the list.  Returns the written output row
together with the state of the `below_bound` scratch list after the
iteration. -/
def rowIter {n : ℕ} (Q : Matrix (Fin n) (Fin n) ℚ) (ncoefs : ℕ)
    (check_lower : Bool) (lbound : ℚ) (below : List (Fin n))
    (row : Fin n → ℚ) : (Fin n → ℚ) × List (Fin n) :=
  let below1 :=
    if check_lower then
      below ++ (List.finRange n).filter (fun c => decide (row c ≤ lbound))
    else below
  let res := qrResidual Q ncoefs row
  if check_lower && !below1.isEmpty then
    (fun i => if i ∈ below1 then bufMin res - 1 else res i, [])
  else
    (res, below1)

/-- The per-row loop of `get_residuals.cpp`, carrying the `below_bound`
scratch deque across iterations exactly as the C++ does (it is cleared
only inside the overwrite branch). -/
def residLoop {n : ℕ} (Q : Matrix (Fin n) (Fin n) ℚ) (ncoefs : ℕ)
    (check_lower : Bool) (lbound : ℚ) :
    List (Fin n → ℚ) → List (Fin n) → List (Fin n → ℚ)
  | [], _ => []
  | row :: rest, below =>
    let p := rowIter Q ncoefs check_lower lbound below row
    p.1 :: residLoop Q ncoefs check_lower lbound rest p.2

/-- The loop body as an independent per-row function: one iteration
started from an empty scratch list. -/
def processRow {n : ℕ} (Q : Matrix (Fin n) (Fin n) ℚ) (ncoefs : ℕ)
    (check_lower : Bool) (lbound : ℚ) (row : Fin n → ℚ) : Fin n → ℚ :=
  (rowIter Q ncoefs check_lower lbound [] row).1

/-- The beachmat output parameter chosen for the result matrix: either
built from the input's class and package strings, or the library
default. -/
inductive OutParam where
  | fromInput (cls pkg : String)
  | defaultParam
deriving DecidableEq

/-- `get_residuals.cpp` lines 35-38: `OPARAM` is built from the input's
class and package strings, and is replaced by the default parameter when
`emat->get_class()=="dgCMatrix" && emat->get_class()=="Matrix"`. -/
def selectOutputParam (cls pkg : String) : OutParam :=
  if cls = "dgCMatrix" ∧ cls = "Matrix" then .defaultParam
  else .fromInput cls pkg

/-- The `get_residuals` entry point: validate the subset, the
factorization dimensions (modelled from the spec's `DimensionMismatch`)
and the lower-bound scalar, then run the per-row loop over the subset
rows in order, starting from an empty scratch list.  Errors model the
C++ exceptions caught by the `BEGIN_RCPP`/`END_RCPP` wrapper: on error
nothing is returned. -/
def get_residuals (nrow ncells : ℕ) (M : Fin nrow → Fin ncells → ℚ)
    (fact : QRFact) (subset : List ℤ) (lower_bound : List RVal) :
    Except String (List (Fin ncells → ℚ)) :=
  match check_subset_vector nrow subset with
  | .error e => .error e
  | .ok subout =>
    if hdim : fact.dim = ncells then
      match check_numeric_scalar lower_bound with
      | .error e => .error e
      | .ok lb =>
        let Q : Matrix (Fin ncells) (Fin ncells) ℚ := hdim ▸ fact.Q
        .ok (residLoop Q fact.ncoefs (R_FINITE lb) lb.toQ
              (subout.map (fun r => M r)) [])
    else
      .error "dimension mismatch between QR factorization and matrix"

/-! ### Helper lemmas -/

lemma bufMin_le {n : ℕ} (v : Fin n → ℚ) (j : Fin n) : bufMin v ≤ v j := by
  have hmem : v j ∈ (List.finRange n).map v :=
    List.mem_map_of_mem _ (List.mem_finRange j)
  unfold bufMin
  cases hmin : ((List.finRange n).map v).min? with
  | none =>
    rw [List.min?_eq_none_iff] at hmin
    rw [hmin] at hmem
    cases hmem
  | some m =>
    have := ((List.le_min?_iff (fun a b c => le_min_iff) hmin).mp
      (le_refl m)) (v j) hmem
    simpa using this

lemma rowIter_snd_empty {n : ℕ} (Q : Matrix (Fin n) (Fin n) ℚ) (nc : ℕ)
    (cl : Bool) (lb : ℚ) (row : Fin n → ℚ) :
    (rowIter Q nc cl lb [] row).2 = [] := by
  unfold rowIter
  cases cl with
  | false => simp
  | true =>
    simp only [if_pos rfl, List.nil_append, Bool.true_and]
    by_cases h : ((List.finRange n).filter fun c => decide (row c ≤ lb)).isEmpty
    · rw [List.isEmpty_iff] at h
      simp [h]
    · simp [h]

lemma residLoop_eq_map {n : ℕ} (Q : Matrix (Fin n) (Fin n) ℚ) (nc : ℕ)
    (cl : Bool) (lb : ℚ) (rows : List (Fin n → ℚ)) :
    residLoop Q nc cl lb rows [] = rows.map (processRow Q nc cl lb) := by
  induction rows with
  | nil => rfl
  | cons row rest ih =>
    show (rowIter Q nc cl lb [] row).1 ::
        residLoop Q nc cl lb rest (rowIter Q nc cl lb [] row).2 = _
    rw [rowIter_snd_empty, ih]
    rfl

lemma processRow_false {n : ℕ} (Q : Matrix (Fin n) (Fin n) ℚ) (nc : ℕ)
    (lb : ℚ) (row : Fin n → ℚ) :
    processRow Q nc false lb row = qrResidual Q nc row := by
  simp [processRow, rowIter]

/-- Reindex a sum over the first `m` coordinates of `Fin n` as a sum over
`Fin m`. -/
lemma sum_ite_lt_eq_castLE {n m : ℕ} (hm : m ≤ n) (f : Fin n → ℚ) :
    (∑ j : Fin n, if (j : ℕ) < m then f j else 0)
      = ∑ k : Fin m, f (Fin.castLE hm k) := by
  rw [← Finset.sum_filter]
  refine Finset.sum_bij'
    (fun (j : Fin n) hj => (⟨(j : ℕ), (Finset.mem_filter.mp hj).2⟩ : Fin m))
    (fun (k : Fin m) _ => Fin.castLE hm k) ?_ ?_ ?_ ?_ ?_
  · intro a ha
    exact Finset.mem_univ _
  · intro a ha
    refine Finset.mem_filter.mpr ⟨Finset.mem_univ _, a.isLt⟩
  · intro a ha
    rfl
  · intro a ha
    rfl
  · intro a ha
    rfl

lemma zeroFirst_eq_sub {n : ℕ} (m : ℕ) (v : Fin n → ℚ) :
    zeroFirst m v = v - fun (j : Fin n) => if (j : ℕ) < m then v j else 0 := by
  funext j
  by_cases h : (j : ℕ) < m <;> simp [zeroFirst, h]

/-- The first `ncoefs` columns of Q, as an `n × ncoefs` matrix. -/
def firstCols {n : ℕ} (Q : Matrix (Fin n) (Fin n) ℚ) {m : ℕ} (hm : m ≤ n) :
    Matrix (Fin n) (Fin m) ℚ :=
  Q.submatrix id (Fin.castLE hm)

/-- The projection step computes the ordinary-least-squares residual:
apply Qᵗ, zero the first `ncoefs` coordinates, apply Q equals
`row - Q₁·(Q₁ᵗ·row)` where `Q₁` is the first `ncoefs` columns of Q. -/
lemma qrResidual_eq_ols {n : ℕ} (Q : Matrix (Fin n) (Fin n) ℚ) (ncoefs : ℕ)
    (hQ : Q.transpose * Q = 1) (hc : ncoefs ≤ n) (row : Fin n → ℚ) :
    qrResidual Q ncoefs row =
      row - (firstCols Q hc).mulVec ((firstCols Q hc).transpose.mulVec row) := by
  unfold qrResidual applyQ applyQt
  rw [zeroFirst_eq_sub, Matrix.mulVec_sub, Matrix.mulVec_mulVec,
    Matrix.mul_eq_one_comm.mp hQ, Matrix.one_mulVec]
  congr 1
  funext i
  show (∑ j : Fin n, Q i j * if (j : ℕ) < ncoefs then (Q.transpose.mulVec row) j else 0)
      = ∑ k : Fin ncoefs, (firstCols Q hc) i k * ((firstCols Q hc).transpose.mulVec row) k
  have h1 : (∑ j : Fin n, Q i j * if (j : ℕ) < ncoefs then (Q.transpose.mulVec row) j else 0)
      = ∑ j : Fin n, if (j : ℕ) < ncoefs then Q i j * (Q.transpose.mulVec row) j else 0 := by
    refine Finset.sum_congr rfl fun j _ => ?_
    by_cases h : (j : ℕ) < ncoefs <;> simp [h]
  rw [h1, sum_ite_lt_eq_castLE hc (fun j => Q i j * (Q.transpose.mulVec row) j)]
  refine Finset.sum_congr rfl fun k _ => ?_
  simp [firstCols, Matrix.mulVec, Matrix.dotProduct, Matrix.submatrix,
    Matrix.transpose_apply]

lemma get_residuals_ok {nrow ncells : ℕ} (M : Fin nrow → Fin ncells → ℚ)
    (Q : Matrix (Fin ncells) (Fin ncells) ℚ) (nc : ℕ)
    {subset : List ℤ} {subout : List (Fin nrow)} {lower_bound : List RVal} {lb : RVal}
    (hsub : check_subset_vector nrow subset = .ok subout)
    (hlb : check_numeric_scalar lower_bound = .ok lb) :
    get_residuals nrow ncells M ⟨ncells, Q, nc⟩ subset lower_bound
      = .ok (subout.map fun r => processRow Q nc (R_FINITE lb) lb.toQ (M r)) := by
  unfold get_residuals
  rw [hsub, hlb]
  simp [residLoop_eq_map]

/-- A subset given as (coerced) valid row indices passes validation and
comes back unchanged. -/
lemma check_subset_vector_coe {nrow : ℕ} (l : List (Fin nrow)) :
    check_subset_vector nrow (l.map fun i => (i.val : ℤ)) = .ok l := by
  induction l with
  | nil => rfl
  | cons i rest ih =>
    have hi : (0 : ℤ) ≤ (i.val : ℤ) ∧ (i.val : ℤ) < (nrow : ℤ) := by
      constructor
      · exact Int.natCast_nonneg _
      · exact_mod_cast i.isLt
    rw [List.map_cons, check_subset_vector, dif_pos hi, ih]
    rfl

/-- An out-of-range index makes subset validation fail. -/
lemma check_subset_vector_error {nrow : ℕ} {subset : List ℤ}
    (hbad : ∃ i ∈ subset, i < 0 ∨ (nrow : ℤ) ≤ i) :
    check_subset_vector nrow subset = .error "subset indices out of range" := by
  induction subset with
  | nil => simp at hbad
  | cons i rest ih =>
    obtain ⟨j, hj, hjbad⟩ := hbad
    rcases List.mem_cons.mp hj with rfl | hjrest
    · have : ¬ (0 ≤ j ∧ j < (nrow : ℤ)) := by omega
      simp only [check_subset_vector, dif_neg this]
    · by_cases h : 0 ≤ i ∧ i < (nrow : ℤ)
      · simp only [check_subset_vector, dif_pos h, ih ⟨j, hjrest, hjbad⟩]
      · simp only [check_subset_vector, dif_neg h]

/-- A lower-bound argument that is not a length-one vector fails scalar
validation. -/
lemma check_numeric_scalar_error {lower_bound : List RVal}
    (hbad : lower_bound.length ≠ 1) :
    check_numeric_scalar lower_bound
      = .error "expected a numeric scalar for the lower bound" := by
  match lower_bound with
  | [] => rfl
  | [x] => simp at hbad
  | x :: y :: rest => rfl

/-! ### Claim theorems -/

/-- C4: the output parameter actually used always mirrors the input's
class and package tag, including for dgCMatrix inputs: the exception
branch is unreachable because its guard compares `get_class()` against
both "dgCMatrix" and "Matrix" simultaneously. -/
theorem selectOutputParam_mirrors_input :
    ∀ cls pkg : String, selectOutputParam cls pkg = .fromInput cls pkg := by
  intro cls pkg
  unfold selectOutputParam
  rw [if_neg]
  rintro ⟨h1, h2⟩
  rw [h1] at h2
  exact absurd h2 (by decide)

/-- C3, evaluation at the failing input: for an input whose class is
"dgCMatrix" and whose package is "Matrix", the code does not force the
default output representation; it mirrors the sparse class instead. -/
theorem selectOutputParam_dgCMatrix_eval :
    selectOutputParam "dgCMatrix" "Matrix" = .fromInput "dgCMatrix" "Matrix" ∧
    selectOutputParam "dgCMatrix" "Matrix" ≠ .defaultParam := by
  constructor
  · rw [selectOutputParam, if_neg]
    rintro ⟨h1, h2⟩
    rw [h1] at h2
    exact absurd h2 (by decide)
  · rw [selectOutputParam, if_neg]
    · intro h
      cases h
    · rintro ⟨h1, h2⟩
      rw [h1] at h2
      exact absurd h2 (by decide)

/-- C1: with a valid subset, a length-one lower bound that is non-finite
(thresholding disabled), and an orthogonal factorization with
`ncoefs ≤ ncells`, every output row equals the ordinary-least-squares
residual of the corresponding input row, `row − Q₁·(Q₁ᵗ·row)`, where `Q₁`
is the first `ncoefs` columns of Q. -/
theorem get_residuals_ols {nrow ncells : ℕ} (M : Fin nrow → Fin ncells → ℚ)
    (Q : Matrix (Fin ncells) (Fin ncells) ℚ) (nc : ℕ)
    (subset : List ℤ) (subout : List (Fin nrow)) (lower_bound : List RVal)
    (lb : RVal)
    (hsub : check_subset_vector nrow subset = .ok subout)
    (hlb : check_numeric_scalar lower_bound = .ok lb)
    (hfin : R_FINITE lb = false)
    (hQ : Q.transpose * Q = 1) (hc : nc ≤ ncells) :
    get_residuals nrow ncells M ⟨ncells, Q, nc⟩ subset lower_bound
      = .ok (subout.map fun r =>
          M r - (firstCols Q hc).mulVec
            ((firstCols Q hc).transpose.mulVec (M r))) := by
  rw [get_residuals_ok M Q nc hsub hlb, hfin]
  have h : ∀ r : Fin nrow,
      processRow Q nc false lb.toQ (M r)
        = M r - (firstCols Q hc).mulVec ((firstCols Q hc).transpose.mulVec (M r)) := by
    intro r
    rw [processRow_false, qrResidual_eq_ols Q nc hQ hc]
  simp only [h]

/-- Witness for C1 at a concrete input. -/
theorem get_residuals_ols_witness :
    check_subset_vector 1 [(0 : ℤ)] = .ok [(0 : Fin 1)] ∧
    check_numeric_scalar [RVal.nan] = .ok RVal.nan ∧
    R_FINITE RVal.nan = false ∧
    (1 : Matrix (Fin 2) (Fin 2) ℚ).transpose * 1 = 1 ∧
    get_residuals 1 2 (fun _ _ => (3 : ℚ)) ⟨2, 1, 1⟩ [(0 : ℤ)] [RVal.nan]
      = .ok ([(0 : Fin 1)].map fun r =>
          (fun _ _ => (3 : ℚ)) r
            - (firstCols (1 : Matrix (Fin 2) (Fin 2) ℚ) one_le_two).mulVec
              ((firstCols (1 : Matrix (Fin 2) (Fin 2) ℚ) one_le_two).transpose.mulVec
                ((fun _ _ => (3 : ℚ)) r))) := by
  have hsub : check_subset_vector 1 [(0 : ℤ)] = .ok [(0 : Fin 1)] := rfl
  have hQ : (1 : Matrix (Fin 2) (Fin 2) ℚ).transpose * 1 = 1 := by simp
  exact ⟨hsub, rfl, rfl, hQ,
    get_residuals_ols (fun _ _ => 3) 1 1 [(0 : ℤ)] [(0 : Fin 1)] [RVal.nan]
      RVal.nan hsub rfl rfl hQ one_le_two⟩

/-- C5: a non-finite lower bound (for example `-Inf`) disables
thresholding entirely: the output is the pure QR-residual computation,
identical to the no-thresholding path for every row. -/
theorem get_residuals_nonfinite_pure {nrow ncells : ℕ}
    (M : Fin nrow → Fin ncells → ℚ)
    (Q : Matrix (Fin ncells) (Fin ncells) ℚ) (nc : ℕ)
    (subset : List ℤ) (subout : List (Fin nrow)) (lower_bound : List RVal)
    (lb : RVal)
    (hsub : check_subset_vector nrow subset = .ok subout)
    (hlb : check_numeric_scalar lower_bound = .ok lb)
    (hfin : R_FINITE lb = false) :
    get_residuals nrow ncells M ⟨ncells, Q, nc⟩ subset lower_bound
      = .ok (subout.map fun r => qrResidual Q nc (M r)) := by
  rw [get_residuals_ok M Q nc hsub hlb, hfin]
  simp only [processRow_false]

/-- Witness for C5 at a concrete input with `lower_bound = -Inf`. -/
theorem get_residuals_nonfinite_pure_witness :
    check_subset_vector 1 [(0 : ℤ)] = .ok [(0 : Fin 1)] ∧
    check_numeric_scalar [RVal.negInf] = .ok RVal.negInf ∧
    R_FINITE RVal.negInf = false ∧
    get_residuals 1 1 (fun _ _ => (2 : ℚ)) ⟨1, 1, 0⟩ [(0 : ℤ)] [RVal.negInf]
      = .ok ([(0 : Fin 1)].map fun r =>
          qrResidual (1 : Matrix (Fin 1) (Fin 1) ℚ) 0 ((fun _ _ => (2 : ℚ)) r)) := by
  have hsub : check_subset_vector 1 [(0 : ℤ)] = .ok [(0 : Fin 1)] := rfl
  exact ⟨hsub, rfl, rfl,
    get_residuals_nonfinite_pure (fun _ _ => 2) 1 0 [(0 : ℤ)] [(0 : Fin 1)]
      [RVal.negInf] RVal.negInf hsub rfl rfl⟩


/-- C2: for a row processed with a finite lower bound enabled, if some raw
value is at most the bound (here witnessed at position `i`), then every
censored position (raw value ≤ bound) ends up strictly less than every
non-censored position (raw value > bound) in the output row. -/
theorem processRow_censored_lt {n : ℕ} (Q : Matrix (Fin n) (Fin n) ℚ) (nc : ℕ)
    (lb : ℚ) (row : Fin n → ℚ) (i j : Fin n)
    (hi : row i ≤ lb) (hj : ¬ row j ≤ lb) :
    processRow Q nc true lb row i < processRow Q nc true lb row j := by
  have hib : i ∈ (List.finRange n).filter (fun c => decide (row c ≤ lb)) :=
    List.mem_filter.mpr ⟨List.mem_finRange i, decide_eq_true hi⟩
  have hjb : j ∉ (List.finRange n).filter (fun c => decide (row c ≤ lb)) := by
    intro hmem
    exact hj (of_decide_eq_true (List.mem_filter.mp hmem).2)
  have hne : ((List.finRange n).filter (fun c => decide (row c ≤ lb))).isEmpty = false :=
    List.isEmpty_eq_false.mpr (List.ne_nil_of_mem hib)
  unfold processRow rowIter
  simp only [if_true, List.nil_append, Bool.true_and, hne, Bool.not_false, if_pos rfl]
  rw [if_pos hib, if_neg hjb]
  calc bufMin (qrResidual Q nc row) - 1
      < bufMin (qrResidual Q nc row) := sub_one_lt _
    _ ≤ qrResidual Q nc row j := bufMin_le _ j

/-- C7: for a row processed with a finite lower bound enabled in which
every raw value is at most the bound, every entry of the output row equals
the single sentinel value `min(post-projection buffer) - 1`. -/
theorem processRow_all_censored {n : ℕ} (Q : Matrix (Fin n) (Fin n) ℚ) (nc : ℕ)
    (lb : ℚ) (row : Fin n → ℚ) (hall : ∀ i, row i ≤ lb) :
    ∀ i, processRow Q nc true lb row i = bufMin (qrResidual Q nc row) - 1 := by
  intro i
  have hfilter : (List.finRange n).filter (fun c => decide (row c ≤ lb)) = List.finRange n :=
    List.filter_eq_self.mpr fun a _ => decide_eq_true (hall a)
  have hib : i ∈ List.finRange n := List.mem_finRange i
  have hne : (List.finRange n).isEmpty = false :=
    List.isEmpty_eq_false.mpr (List.ne_nil_of_mem hib)
  unfold processRow rowIter
  simp only [if_true, List.nil_append, Bool.true_and, hfilter, hne,
    Bool.not_false, if_pos rfl]
  rw [if_pos hib]

/-- C8: if any subset index is out of range or the lower bound is not a
length-one numeric scalar, the call fails with an error that does not
depend on the matrix data: validation happens before any row is read or
written, and no partial result is ever returned. -/
theorem get_residuals_validates_upfront {nrow ncells : ℕ}
    (subset : List ℤ) (lower_bound : List RVal) (fact : QRFact)
    (hbad : (∃ i ∈ subset, i < 0 ∨ (nrow : ℤ) ≤ i) ∨ lower_bound.length ≠ 1) :
    ∃ e : String, ∀ M : Fin nrow → Fin ncells → ℚ,
      get_residuals nrow ncells M fact subset lower_bound = .error e := by
  rcases hbad with hsub | hlb
  · refine ⟨"subset indices out of range", fun M => ?_⟩
    unfold get_residuals
    rw [check_subset_vector_error hsub]
  · cases hcs : check_subset_vector nrow subset with
    | error e =>
      refine ⟨e, fun M => ?_⟩
      unfold get_residuals
      rw [hcs]
    | ok subout =>
      by_cases hdim : fact.dim = ncells
      · refine ⟨"expected a numeric scalar for the lower bound", fun M => ?_⟩
        unfold get_residuals
        rw [hcs, check_numeric_scalar_error hlb]
        simp [hdim]
      · refine ⟨"dimension mismatch between QR factorization and matrix", fun M => ?_⟩
        unfold get_residuals
        rw [hcs]
        simp [hdim]

/-- C6: output row `s` is the residual row for subset element `s`, in
subset order; in particular row 0 of the output for `subset = [i]` equals
row `i` of the output for `subset = all rows`. -/
theorem get_residuals_subset_order {nrow ncells : ℕ}
    (M : Fin nrow → Fin ncells → ℚ) (Q : Matrix (Fin ncells) (Fin ncells) ℚ)
    (nc : ℕ) (lower_bound : List RVal) (lb : RVal)
    (hlb : check_numeric_scalar lower_bound = .ok lb) :
    (∀ (subset : List ℤ) (subout : List (Fin nrow)),
      check_subset_vector nrow subset = .ok subout →
      get_residuals nrow ncells M ⟨ncells, Q, nc⟩ subset lower_bound
        = .ok (subout.map fun r => processRow Q nc (R_FINITE lb) lb.toQ (M r))) ∧
    (∀ i : Fin nrow,
      (get_residuals nrow ncells M ⟨ncells, Q, nc⟩ [(i.val : ℤ)] lower_bound).toOption.bind
          (fun out => out[0]?)
        = (get_residuals nrow ncells M ⟨ncells, Q, nc⟩
            ((List.finRange nrow).map fun r => (r.val : ℤ)) lower_bound).toOption.bind
          (fun out => out[i.val]?)) := by
  constructor
  · intro subset subout hsub
    exact get_residuals_ok M Q nc hsub hlb
  · intro i
    have h1 : check_subset_vector nrow [(i.val : ℤ)] = .ok [i] := by
      simpa using check_subset_vector_coe [i]
    rw [get_residuals_ok M Q nc h1 hlb,
        get_residuals_ok M Q nc (check_subset_vector_coe (List.finRange nrow)) hlb]
    have hlen : i.val < (List.finRange nrow).length := by
      simp [i.isLt]
    simp [Except.toOption, List.getElem?_map, List.getElem?_eq_getElem hlen,
      List.getElem_finRange]

/-- C9: the `below_bound` scratch list is empty again after every
iteration that starts with it empty (it is cleared by the sentinel pass,
and a row recording no indices leaves it empty), so the loop started from
an empty list equals the independent per-row map: indices recorded for
one row never affect the sentinel overwrite of a later row. -/
theorem below_bound_reset {n : ℕ} (Q : Matrix (Fin n) (Fin n) ℚ) (nc : ℕ) :
    (∀ (cl : Bool) (lb : ℚ) (row : Fin n → ℚ),
      (rowIter Q nc cl lb [] row).2 = []) ∧
    (∀ (cl : Bool) (lb : ℚ) (rows : List (Fin n → ℚ)),
      residLoop Q nc cl lb rows [] = rows.map (processRow Q nc cl lb)) :=
  ⟨fun cl lb row => rowIter_snd_empty Q nc cl lb row,
   fun cl lb rows => residLoop_eq_map Q nc cl lb rows⟩

/-- C10: if the subset holds the same source row at positions `s1` and
`s2`, the corresponding output rows are equal. -/
theorem get_residuals_duplicate_rows {nrow ncells : ℕ}
    (M : Fin nrow → Fin ncells → ℚ) (Q : Matrix (Fin ncells) (Fin ncells) ℚ)
    (nc : ℕ) (subset : List ℤ) (subout : List (Fin nrow))
    (lower_bound : List RVal) (lb : RVal) (out : List (Fin ncells → ℚ))
    (s1 s2 : ℕ) (r : Fin nrow)
    (hsub : check_subset_vector nrow subset = .ok subout)
    (hlb : check_numeric_scalar lower_bound = .ok lb)
    (hout : get_residuals nrow ncells M ⟨ncells, Q, nc⟩ subset lower_bound = .ok out)
    (h1 : subout[s1]? = some r) (h2 : subout[s2]? = some r) :
    out[s1]? = out[s2]? := by
  rw [get_residuals_ok M Q nc hsub hlb] at hout
  injection hout with hout
  rw [← hout, List.getElem?_map, List.getElem?_map, h1, h2]

/-- Witness for C2 at a concrete input. -/
theorem processRow_censored_lt_witness :
    ((fun i : Fin 2 => if i.val = 0 then (0 : ℚ) else 5) 0 ≤ 1) ∧
    ¬ ((fun i : Fin 2 => if i.val = 0 then (0 : ℚ) else 5) 1 ≤ 1) ∧
    processRow (1 : Matrix (Fin 2) (Fin 2) ℚ) 0 true 1
        (fun i : Fin 2 => if i.val = 0 then (0 : ℚ) else 5) 0
      < processRow (1 : Matrix (Fin 2) (Fin 2) ℚ) 0 true 1
        (fun i : Fin 2 => if i.val = 0 then (0 : ℚ) else 5) 1 :=
  ⟨by norm_num, by norm_num,
   processRow_censored_lt 1 0 1 (fun i : Fin 2 => if i.val = 0 then (0 : ℚ) else 5)
     0 1 (by norm_num) (by norm_num)⟩

/-- Witness for C7 at a concrete input. -/
theorem processRow_all_censored_witness :
    (∀ i : Fin 1, (fun _ : Fin 1 => (0 : ℚ)) i ≤ 1) ∧
    ∀ i, processRow (1 : Matrix (Fin 1) (Fin 1) ℚ) 0 true 1 (fun _ => (0 : ℚ)) i
      = bufMin (qrResidual (1 : Matrix (Fin 1) (Fin 1) ℚ) 0 (fun _ => (0 : ℚ))) - 1 :=
  ⟨fun i => by norm_num,
   processRow_all_censored 1 0 1 (fun _ => (0 : ℚ)) (fun i => by norm_num)⟩

/-- Witness for C8 at a concrete out-of-range subset. -/
theorem get_residuals_validates_upfront_witness :
    ((∃ i ∈ [(5 : ℤ)], i < 0 ∨ ((1 : ℕ) : ℤ) ≤ i) ∨ ([RVal.nan] : List RVal).length ≠ 1) ∧
    ∃ e : String, ∀ M : Fin 1 → Fin 1 → ℚ,
      get_residuals 1 1 M ⟨1, 1, 0⟩ [(5 : ℤ)] [RVal.nan] = .error e :=
  ⟨Or.inl ⟨5, List.Mem.head _, Or.inr (by decide)⟩,
   get_residuals_validates_upfront [(5 : ℤ)] [RVal.nan] ⟨1, 1, 0⟩
     (Or.inl ⟨5, List.Mem.head _, Or.inr (by decide)⟩)⟩

/-- Witness for C6 at a concrete input. -/
theorem get_residuals_subset_order_witness :
    check_numeric_scalar [RVal.nan] = .ok RVal.nan ∧
    ((∀ (subset : List ℤ) (subout : List (Fin 1)),
      check_subset_vector 1 subset = .ok subout →
      get_residuals 1 1 (fun _ _ => (0 : ℚ)) ⟨1, 1, 0⟩ subset [RVal.nan]
        = .ok (subout.map fun r => processRow (1 : Matrix (Fin 1) (Fin 1) ℚ) 0
            (R_FINITE RVal.nan) (RVal.nan).toQ ((fun _ _ => (0 : ℚ)) r))) ∧
    (∀ i : Fin 1,
      (get_residuals 1 1 (fun _ _ => (0 : ℚ)) ⟨1, 1, 0⟩ [(i.val : ℤ)] [RVal.nan]).toOption.bind
          (fun out => out[0]?)
        = (get_residuals 1 1 (fun _ _ => (0 : ℚ)) ⟨1, 1, 0⟩
            ((List.finRange 1).map fun r => (r.val : ℤ)) [RVal.nan]).toOption.bind
          (fun out => out[i.val]?))) :=
  ⟨rfl, get_residuals_subset_order (fun _ _ => 0) 1 0 [RVal.nan] RVal.nan rfl⟩

/-- Witness for C10 with the duplicate subset `[0, 0]`. -/
theorem get_residuals_duplicate_rows_witness :
    check_subset_vector 1 [(0 : ℤ), 0] = .ok [(0 : Fin 1), 0] ∧
    check_numeric_scalar [RVal.nan] = .ok RVal.nan ∧
    get_residuals 1 1 (fun _ _ => (0 : ℚ)) ⟨1, 1, 0⟩ [(0 : ℤ), 0] [RVal.nan]
      = .ok (([(0 : Fin 1), 0]).map fun r => processRow (1 : Matrix (Fin 1) (Fin 1) ℚ) 0
          (R_FINITE RVal.nan) (RVal.nan).toQ ((fun _ _ => (0 : ℚ)) r)) ∧
    ([(0 : Fin 1), 0])[0]? = some 0 ∧
    ([(0 : Fin 1), 0])[1]? = some 0 ∧
    (([(0 : Fin 1), 0]).map fun r => processRow (1 : Matrix (Fin 1) (Fin 1) ℚ) 0
        (R_FINITE RVal.nan) (RVal.nan).toQ ((fun _ _ => (0 : ℚ)) r))[0]?
      = (([(0 : Fin 1), 0]).map fun r => processRow (1 : Matrix (Fin 1) (Fin 1) ℚ) 0
        (R_FINITE RVal.nan) (RVal.nan).toQ ((fun _ _ => (0 : ℚ)) r))[1]? := by
  have hsub : check_subset_vector 1 [(0 : ℤ), 0] = .ok [(0 : Fin 1), 0] := rfl
  have hout := @get_residuals_ok 1 1 (fun _ _ => (0 : ℚ)) 1 0 [(0 : ℤ), 0]
    [(0 : Fin 1), 0] [RVal.nan] RVal.nan hsub rfl
  exact ⟨hsub, rfl, hout, rfl, rfl,
    get_residuals_duplicate_rows (fun _ _ => (0 : ℚ)) 1 0 [(0 : ℤ), 0]
      [(0 : Fin 1), 0] [RVal.nan] RVal.nan _ 0 1 0 hsub rfl hout rfl rfl⟩
